import Mathlib

/-!
# The image and layer store of `fs/store.go`

A shallow embedding of `src/fs/store.go`.

* The catalog (the sqlite database reached through gorp) is four tables, each a list of rows
  in insertion order, with the primary keys declared in `New`: `images` on `Id`, `paths` on
  `(Path, Image)`, `mountpoints` on `Root`, `tags` on `TagName`.  `Insert` fails exactly on a
  primary-key clash, `Get` is the lookup by key, `Delete` removes the rows carrying the key.
  A transaction that `Register` begins and leaves open keeps the write lock of the database:
  from then on every write of the store fails, while reads go on seeing the committed rows.
  Error texts are those of the sqlite driver. Other faults of the driver are outside the
  model.
* A Go method that changes the store takes the store and returns the new store next to its
  result; the back-reference `store *Store` carried by `Image` and `Mountpoint` is that
  explicit argument.
* Go's `error` is kept as its message; `nil` is `none` (or `Except.ok`).
* `path.Clean`, `strings.SplitN` and `regexp.MatchString` belong to the Go standard library.
  The first two are written out from their documented behaviour; the last is an argument of
  `RemoveRegexp`.
* `LayerStore`, the directory of layers kept beside the catalog, is modelled from section 4.1
  of the specification: one subdirectory per layer, named by image identifier. The directory
  of the empty identifier is the root itself.
-/

set_option linter.dupNamespace false

namespace Fs

/-- Go's `error`, kept as its message. -/
abbrev Error := String

/-! ## Standard library: `path.Clean` and `strings.SplitN` -/

/-- The elements of a path: the pieces between the slashes. -/
def splitSlash : List Char → List (List Char)
  | [] => [[]]
  | c :: cs =>
    if c = '/' then [] :: splitSlash cs
    else
      match splitSlash cs with
      | [] => [[c]]
      | e :: es => (c :: e) :: es

/-- The element loop of `path.Clean`. `acc` is the output so far, last element first. Empty
elements and `.` are dropped; `..` removes the last real element, is dropped at the root of a
rooted path, and is kept in front of an unrooted one. -/
def cleanElems (rooted : Bool) : List (List Char) → List (List Char) → List (List Char)
  | acc, [] => acc.reverse
  | acc, e :: rest =>
    if e = [] ∨ e = ['.'] then cleanElems rooted acc rest
    else if e = ['.', '.'] then
      match acc with
      | [] => if rooted then cleanElems rooted [] rest else cleanElems rooted [e] rest
      | top :: acc' =>
        if top = ['.', '.'] then cleanElems rooted (e :: acc) rest
        else cleanElems rooted acc' rest
    else cleanElems rooted (e :: acc) rest

/-- Elements joined by single slashes. -/
def joinSlash : List (List Char) → List Char
  | [] => []
  | [e] => e
  | e :: es => e ++ '/' :: joinSlash es

/-- Go's `path.Clean` on the characters of a path. -/
def cleanChars (p : List Char) : List Char :=
  match p with
  | [] => ['.']
  | c :: _ =>
    let rooted : Bool := c = '/'
    let out := (if rooted then ['/'] else []) ++ joinSlash (cleanElems rooted [] (splitSlash p))
    if out = [] then ['.'] else out

/-- Go's `path.Clean`: the shortest path name equivalent to `p` by purely lexical processing. -/
def pathClean (p : String) : String := ⟨cleanChars p.data⟩

/-- Go's `strings.SplitN(s, ":", 2)`: the text before the first colon and the text after it,
or the whole of `s` alone when it holds no colon. -/
def splitColon2 : List Char → List (List Char)
  | [] => [[]]
  | c :: cs =>
    if c = ':' then [[], cs]
    else
      match splitColon2 cs with
      | [a, b] => [c :: a, b]
      | _ => [c :: cs]

/-! ## Data model -/

/-- The row type of table `images`. `Created` is an `int64` that is only stored and compared. -/
structure Image where
  Id : String
  Parent : String
  Comment : String
  Created : Int
deriving DecidableEq

/-- The row type of table `paths`. -/
structure Path where
  Path : String
  Image : String
deriving DecidableEq

/-- The row type of table `mountpoints`. -/
structure Mountpoint where
  Image : String
  Root : String
  Rw : String
deriving DecidableEq

/-- The row type of table `tags`. -/
structure Tag where
  TagName : String
  Image : String
deriving DecidableEq

/-- The archive handed to `AddLayer`, seen through the one thing the store observes of it:
whether its extraction goes through. -/
structure Archive where
  extracts : Bool
deriving DecidableEq

/-- Modelled from the spec: the `LayerStore` type and its methods `AddLayer`, `Get` and `List`
are missing from the sources. The store is a root directory holding one subdirectory per
layer, named by image identifier; `ids` lists those subdirectories in creation order. -/
structure LayerStore where
  Root : String
  ids : List String
deriving DecidableEq

/-- Modelled from the spec: the directory of layer `id`, `<root>/<id>` (a helper of the
missing `LayerStore`). -/
def LayerStore.layerPath (layers : LayerStore) (id : String) : String :=
  layers.Root ++ "/" ++ id

/-- Modelled from the spec: whether the directory `<root>/<id>` exists (a helper of the
missing `LayerStore`). For the empty `id` it is the root directory itself, which exists; for
another `id` it is the subdirectory of that name. -/
def LayerStore.hasDir (layers : LayerStore) (id : String) : Bool :=
  decide (id = "") || decide (id ∈ layers.ids)

/-- Modelled from the spec: `AddLayer` of the missing `LayerStore`. It creates directory
`<root>/<id>` and extracts the archive into it, fails if the directory already exists, and on
an extraction error removes the partial directory. -/
def LayerStore.AddLayer (layers : LayerStore) (id : String) (archive : Archive) :
    Except Error String × LayerStore :=
  if layers.hasDir id then (.error ("Layer already exists: " ++ id), layers)
  else if archive.extracts then
    (.ok (layers.layerPath id), { layers with ids := layers.ids ++ [id] })
  else (.error "Could not extract archive", layers)

/-- Modelled from the spec: `Get` of the missing `LayerStore`. It returns the directory path
if it exists, the empty string otherwise. -/
def LayerStore.Get (layers : LayerStore) (id : String) : String :=
  if layers.hasDir id then layers.layerPath id else ""

/-- Modelled from the spec: `List` of the missing `LayerStore`, the enumeration of the
immediate subdirectories. -/
def LayerStore.List (layers : LayerStore) : List String := layers.ids

/-- The store: its root directory, the four tables of the catalog (their committed rows) and
the layer store. `locked` tells whether a transaction of `Register` has been left open: such a
transaction keeps the write lock of the database for as long as the store lives. -/
structure Store where
  Root : String
  images : List Image
  paths : List Path
  mountpoints : List Mountpoint
  tags : List Tag
  layers : LayerStore
  locked : Bool
deriving DecidableEq

/-! ## The object-relational layer -/

/-- The driver's message for a primary-key clash on the key columns `columns`. -/
def uniqueViolation (columns : String) : Error := "UNIQUE constraint failed: " ++ columns

/-- The driver's message for a write while another connection holds the write lock. -/
def databaseLocked : Error := "database is locked"

/-- Insertion of a row in a table with primary key `key` on the columns `columns`: refused when
a row with the same key is present, appended otherwise. -/
def insertRow {α κ : Type} [DecidableEq κ] (columns : String) (key : α → κ) (table : List α)
    (row : α) : Except Error (List α) :=
  if table.any (fun r => decide (key r = key row)) then .error (uniqueViolation columns)
  else .ok (table ++ [row])

/-- Lookup by primary key. -/
def getRow {α κ : Type} [DecidableEq κ] (key : α → κ) (table : List α) (k : κ) : Option α :=
  table.find? (fun r => decide (key r = k))

/-- Deletion by primary key. -/
def deleteRow {α κ : Type} [DecidableEq κ] (key : α → κ) (table : List α) (k : κ) : List α :=
  table.filter (fun r => !decide (key r = k))

/-- The primary key of table `paths`. -/
def Path.key (p : Fs.Path) : String × String := (p.Path, p.Image)

/-- A write statement of the store: it fails when an open transaction holds the write lock,
and has its own result otherwise. -/
def Store.write {α : Type} (store : Store) (result : Except Error α) : Except Error α :=
  if store.locked then .error databaseLocked else result

/-! ## `Store` -/

/-- `New`: the store over a fresh root directory, with empty tables and no layer. -/
def New (root : String) : Store :=
  { Root := root, images := [], paths := [], mountpoints := [], tags := [],
    layers := { Root := root ++ "/layers", ids := [] }, locked := false }

/-- `Store.imageList`: the rows as images of this store. -/
def Store.imageList (_store : Store) (src : List Image) : List Image := src

/-- `Store.Images`: `select * from images`. -/
def Store.Images (store : Store) : Except Error (List Image) :=
  .ok (store.imageList store.images)

/-- `Store.Paths`: `select distinct Path from paths order by Path`. -/
def Store.Paths (store : Store) : Except Error (List String) :=
  .ok (((store.paths.map (fun p => p.Path)).dedup).insertionSort (fun a b => a ≤ b))

/-- `Store.Layers`. -/
def Store.Layers (store : Store) : List String := store.layers.List

/-- `Store.Remove`: `orm.Delete(img)`, deletion of the image row by its key. -/
def Store.Remove (store : Store) (img : Image) : Option Error × Store :=
  match store.write (.ok (deleteRow Image.Id store.images img.Id)) with
  | .error err => (some err, store)
  | .ok images => (none, { store with images := images })

/-- `Store.Get`: the image row with the given id, or nil. -/
def Store.Get (store : Store) (id : String) : Except Error (Option Image) :=
  .ok (getRow Image.Id store.images id)

/-- The join `from images, paths where Path=? and paths.Image=images.Id`, projected on the
image columns, in the order sqlite produces it: the rows of `paths` with the given `Path` are
read from the index of the primary key `(Path, Image)`, that is by increasing `Image`, and for
each of them the images with that `Id` are looked up. -/
def Store.imagesAtPath (store : Store) (pth : String) : List Image :=
  ((store.paths.filter (fun p => decide (p.Path = pth))).insertionSort
      (fun a b => a.Image ≤ b.Image)).flatMap
    (fun p => store.images.filter (fun i => decide (p.Image = i.Id)))

/-- The clause `order by images.Created desc`: a stable sort, so that rows with equal `Created`
keep the order of the join. -/
def newestFirst (images : List Image) : List Image :=
  images.insertionSort (fun a b => b.Created ≤ a.Created)

/-- `Store.List`: the images bound to the cleaned path, newest first. -/
def Store.List (store : Store) (pth : String) : Except Error (List Image) :=
  let pth := pathClean pth
  .ok (store.imageList (newestFirst (store.imagesAtPath pth)))

/-- The loop of `Store.RemoveInPath`: remove each image, stop at the first error. -/
def removeEach (store : Store) : List Image → Option Error × Store
  | [] => (none, store)
  | img :: rest =>
    match store.Remove img with
    | (some err, store1) => (some err, store1)
    | (none, store1) => removeEach store1 rest

/-- `Store.RemoveInPath`. -/
def Store.RemoveInPath (store : Store) (pth : String) : Option Error × Store :=
  match store.List pth with
  | .error err => (some err, store)
  | .ok images => removeEach store images

/-- The loop of `Store.RemoveRegexp` over the paths retrieved at its start. `matchString` is
Go's `regexp.MatchString`. A failure of `RemoveInPath` ends the loop with a nil error. -/
def removeMatching (matchString : String → String → Except Error Bool)
    (pattern : String) : Store → List String → Option Error × Store
  | store, [] => (none, store)
  | store, pth :: rest =>
    match matchString pattern pth with
    | .error err => (some err, store)
    | .ok true =>
      match store.RemoveInPath pth with
      | (some _, store1) => (none, store1)
      | (none, store1) => removeMatching matchString pattern store1 rest
    | .ok false => removeMatching matchString pattern store rest

/-- `Store.RemoveRegexp`, with Go's `regexp.MatchString` as argument `matchString`. -/
def Store.RemoveRegexp (matchString : String → String → Except Error Bool) (store : Store)
    (pattern : String) : Option Error × Store :=
  match store.Paths with
  | .error err => (some err, store)
  | .ok paths => removeMatching matchString pattern store paths

/-- The query of the `path:rev` form of `Store.Find`:
`from images, paths where Path=? and images.Id=? and paths.Image=images.Id`. -/
def imagesAtPathWithId (store : Store) (pth id : String) : List Image :=
  (store.imagesAtPath pth).filter (fun i => decide (i.Id = id))

/-- `Store.Find`. The result is `none` for Go's `nil, nil`. -/
def Store.Find (store : Store) (pth : String) : Except Error (Option Image) :=
  let pth := pathClean pth
  match store.Get pth with
  | .error err => .error err
  | .ok (some img) => .ok (some img)
  | .ok none =>
    let images :=
      match splitColon2 pth.data with
      | [part0, part1] => imagesAtPathWithId store ⟨part0⟩ ⟨part1⟩
      | parts => (newestFirst (store.imagesAtPath ⟨parts.headD []⟩)).take 1
    match images with
    | [] => .ok none
    | img :: _ => .ok (some img)

/-- A gorp transaction on the tables `Register` writes: the rows as the transaction sees them.
They reach the store by `Commit` only. -/
structure Transaction where
  images : List Image
  paths : List Path

/-- `orm.Begin`. -/
def Store.Begin (store : Store) : Transaction :=
  { images := store.images, paths := store.paths }

/-- `trans.Commit`. -/
def Transaction.Commit (trans : Transaction) (store : Store) : Store :=
  { store with images := trans.images, paths := trans.paths }

/-- `Store.Register`. An error return after `Begin` comes with neither `Commit` nor
`Rollback`: the rows inserted so far never reach the store, and the transaction stays open
with the write lock, so the store is returned locked. -/
def Store.Register (store : Store) (layerData : Archive) (img : Image) (pth : String) :
    Option Error × Store :=
  match store.layers.AddLayer img.Id layerData with
  | (.error err, layers) => (some ("Could not add layer: " ++ err), { store with layers := layers })
  | (.ok _, layers) =>
    let store1 := { store with layers := layers }
    let pathObj : Path := { Path := pathClean pth, Image := img.Id }
    let trans := store1.Begin
    match store1.write (insertRow "images.Id" Image.Id trans.images img) with
    | .error err =>
      (some ("Could not insert image info: " ++ err), { store1 with locked := true })
    | .ok images =>
      match store1.write (insertRow "paths.Path, paths.Image" Path.key trans.paths pathObj) with
      | .error err =>
        (some ("Could not insert path info: " ++ err), { store1 with locked := true })
      | .ok paths => (none, Transaction.Commit { images := images, paths := paths } store1)

/-- `Store.Create`. The identifier `future.RandomId()` and the clock `time.Now().Unix()` are
the arguments `id` and `now`. -/
def Store.Create (store : Store) (id : String) (now : Int) (layerData : Archive)
    (parent : Option Image) (pth comment : String) : (Image × Option Error) × Store :=
  let img : Image :=
    { Id := id, Parent := (match parent with | some p => p.Id | none => ""),
      Comment := comment, Created := now }
  let r := store.Register layerData img pth
  ((img, r.1), r.2)

/-! ## `Image` and `Mountpoint` -/

/-- `Image.Copy`. -/
def Image.Copy (image : Image) (store : Store) (pth : String) : Except Error Image × Store :=
  match store.write
      (insertRow "paths.Path, paths.Image" Path.key store.paths
        { Path := pth, Image := image.Id }) with
  | .error err => (.error err, store)
  | .ok paths => (.ok image, { store with paths := paths })

/-- `Image.Mountpoint`. -/
def Image.Mountpoint (image : Image) (store : Store) (root rw : String) :
    Except Error Mountpoint × Store :=
  let mountpoint : Fs.Mountpoint :=
    { Root := pathClean root, Rw := pathClean rw, Image := image.Id }
  match store.write
      (insertRow "mountpoints.Root" Mountpoint.Root store.mountpoints mountpoint) with
  | .error err => (.error err, store)
  | .ok mountpoints => (.ok mountpoint, { store with mountpoints := mountpoints })

/-- The loop of `Image.layers`. `current` is `currentImg` and `list` the layers collected so
far; the result is `none` when `fuel` iterations do not end the loop. -/
def Image.layersLoop (image : Image) (store : Store) :
    Nat → Option Image → List String → Option (List String × Option Error)
  | _, none, list =>
    if list.length = 0 then some ([], some ("No layer found for image " ++ image.Id ++ "\n"))
    else some (list, none)
  | 0, some _, _ => none
  | fuel + 1, some currentImg, list =>
    let layer := store.layers.Get currentImg.Id
    if layer ≠ "" then
      match store.Get currentImg.Parent with
      | .error err => some (list ++ [layer], some ("Error while getting parent image: " ++ err))
      | .ok next => Image.layersLoop image store fuel next (list ++ [layer])
    else some (list, some ("Layer not found for image " ++ image.Id))

/-- `Image.layers`, run for at most `fuel` iterations of its loop. -/
def Image.layers (image : Image) (store : Store) (fuel : Nat) :
    Option (List String × Option Error) :=
  Image.layersLoop image store fuel (some image) []

/-- `Image.Mountpoints`: `select * from mountpoints where Image=?`. -/
def Image.Mountpoints (image : Image) (store : Store) : Except Error (List Fs.Mountpoint) :=
  .ok (store.mountpoints.filter (fun mp => decide (mp.Image = image.Id)))

/-- `Store.FetchMountpoint`: `select * from mountpoints where Root=? and Rw=?`, first row. -/
def Store.FetchMountpoint (store : Store) (root rw : String) :
    Except Error (Option Mountpoint) :=
  match store.mountpoints.filter (fun mp => decide (mp.Root = root) && decide (mp.Rw = rw)) with
  | [] => .ok none
  | mp :: _ => .ok (some mp)

/-- The first step of `Image.Mount`: the mountpoint fetched from the catalog, or created when
the fetch finds none. -/
def Image.mountRow (image : Image) (store : Store) (root rw : String) :
    Except Error Fs.Mountpoint × Store :=
  match store.FetchMountpoint root rw with
  | .error err => (.error err, store)
  | .ok none =>
    match image.Mountpoint store root rw with
    | (.error err, store1) => (.error ("Could not create mountpoint: " ++ err), store1)
    | (.ok mountpoint, store1) => (.ok mountpoint, store1)
  | .ok (some mp) => (.ok mp, store)

/-- The loop of `Image.Mount` that builds `roBranches`. -/
def roBranches (layers : List String) : String :=
  layers.foldl (fun acc layer => acc ++ (layer ++ "=ro:")) ""

/-- The string `branches` of `Image.Mount`. -/
def branches (mountpoint : Mountpoint) (layers : List String) : String :=
  let rwBranch := mountpoint.Rw ++ "=rw"
  "br:" ++ rwBranch ++ ":" ++ roBranches layers

/-- The arguments of a call of `mount`. -/
structure MountCall where
  source : String
  target : String
  fstype : String
  flags : Nat
  data : String
deriving DecidableEq

/-- `Image.Mount` up to its call of `mount`, whose arguments it returns with the mountpoint.
`createFolders` stands for `Mountpoint.createFolders`, which acts on the host file system. -/
def Image.mountCall (image : Image) (createFolders : Fs.Mountpoint → Option Error)
    (store : Store) (fuel : Nat) (root rw : String) :
    Option (Except Error (Fs.Mountpoint × MountCall) × Store) :=
  match image.mountRow store root rw with
  | (.error err, store1) => some (.error err, store1)
  | (.ok mountpoint, store1) =>
    match createFolders mountpoint with
    | some err => some (.error err, store1)
    | none =>
      match image.layers store1 fuel with
      | none => none
      | some (_, some err) => some (.error err, store1)
      | some (layers, none) =>
        some (.ok (mountpoint,
          { source := "none", target := mountpoint.Root, fstype := "aufs", flags := 0,
            data := branches mountpoint layers }), store1)

/-! ## Tags -/

/-- `Store.AddTag`. -/
def Store.AddTag (store : Store) (imageId tagName : String) : Option Error × Store :=
  match store.Get imageId with
  | .error err => (some err, store)
  | .ok none => (some ("No image with ID " ++ imageId), store)
  | .ok (some _) =>
    match store.write
        (insertRow "tags.TagName" Tag.TagName store.tags
          { TagName := tagName, Image := imageId }) with
    | .error err2 => (some err2, store)
    | .ok tags => (none, { store with tags := tags })

/-- `Store.GetByTag`. -/
def Store.GetByTag (store : Store) (tagName : String) : Except Error Image :=
  match getRow Tag.TagName store.tags tagName with
  | none => .error ("No image associated to tag \"" ++ tagName ++ "\"")
  | some tag =>
    match store.Get tag.Image with
    | .error err2 => .error err2
    | .ok none => .error "Tag was found but image seems to be inexistent."
    | .ok (some img) => .ok img

/-! ## Sample stores -/

/-- A sample image. -/
def sampleImage : Image := { Id := "x", Parent := "", Comment := "Testing", Created := 1 }

/-- A sample store: `sampleImage` created at path `foo` in a fresh store. -/
def sampleStore : Store :=
  ((New "/store").Create "x" 1 { extracts := true } none "foo" "Testing").2

/-- A second sample: an image whose parent is `sampleImage`. -/
def childImage : Image := { Id := "y", Parent := "x", Comment := "child", Created := 2 }

/-- The sample store after `childImage` has been created at path `bar`. -/
def childStore : Store :=
  (sampleStore.Create "y" 2 { extracts := true } (some sampleImage) "bar" "child").2

/-- A store whose catalog holds an image with the empty `Id` next to image `a`. -/
def loopStore : Store :=
  { Root := "/store",
    images := [{ Id := "", Parent := "", Comment := "", Created := 1 },
               { Id := "a", Parent := "", Comment := "", Created := 2 }],
    paths := [{ Path := "base", Image := "" }, { Path := "app", Image := "a" }],
    mountpoints := [], tags := [],
    layers := { Root := "/store/layers", ids := ["a"] }, locked := false }

/-- Image `a` of `loopStore`. -/
def loopImage : Image := { Id := "a", Parent := "", Comment := "", Created := 2 }

/-! ## Sequences of calls and parent chains -/

/-- One call of `Register`: its archive, image and path. -/
structure RegisterCall where
  layerData : Archive
  img : Image
  pth : String

/-- A sequence of `Register` calls on a store, every one of which succeeds; `none` as soon as
a call returns an error. -/
def registerAll : Store → List RegisterCall → Option Store
  | store, [] => some store
  | store, c :: rest =>
    match store.Register c.layerData c.img c.pth with
    | (none, store1) => registerAll store1 rest
    | (some _, _) => none

/-- The parent chain `i0, i1, ..., ik` of an image `i0`, in the words of the specification:
each next image is the catalog image whose `Id` is the `Parent` of the one before, and the
last image has the empty `Parent`. -/
def parentChain (store : Store) : List Image → Bool
  | [] => false
  | [ik] => decide (ik.Parent = "")
  | i :: j :: rest =>
    decide (getRow Image.Id store.images i.Parent = some j) && parentChain store (j :: rest)

/-- Two calls of `Register`, whose paths `foo/` and `./foo` name the same directory. -/
def sampleCalls : List RegisterCall :=
  [{ layerData := { extracts := true }, img := sampleImage, pth := "foo/" },
   { layerData := { extracts := true }, img := childImage, pth := "./foo" }]

/-- The fresh store after the calls of `sampleCalls`. -/
def registeredStore : Store :=
  (registerAll (New "/store") sampleCalls).getD (New "/store")

/-! ## Notions used by the properties of `Find`, `RemoveRegexp` and `Mount` -/

/-- An image bound to a path: a row of `images` whose `Id` a row of `paths` pairs with the
path. -/
def Store.Bound (store : Store) (pth : String) (img : Image) : Prop :=
  img ∈ store.images ∧ ({ Path := pth, Image := img.Id } : Fs.Path) ∈ store.paths

/-- Whether the text `s` begins with `pattern`. -/
def startsWith : List Char → List Char → Bool
  | [], _ => true
  | _ :: _, [] => false
  | p :: ps, c :: cs => decide (p = c) && startsWith ps cs

/-- Whether `pattern` occurs somewhere in the text `s`. -/
def occursIn (pattern : List Char) : List Char → Bool
  | [] => startsWith pattern []
  | c :: cs => startsWith pattern (c :: cs) || occursIn pattern cs

/-- Go's `regexp.MatchString` on the patterns made of letters and digits only. Such a pattern
matches the one string equal to it, and `MatchString` reports whether `s` contains any match of
the pattern. Patterns with other characters are outside this fragment. -/
def literalMatchString (pattern s : String) : Except Error Bool :=
  if pattern.data.all Char.isAlphanum then .ok (occursIn pattern.data s.data)
  else .error "pattern outside the literal fragment"

/-- A store with one image, created at path `foobar`. -/
def regexpStore : Store :=
  ((New "/store").Create "x" 1 { extracts := true } none "foobar" "Testing").2

/-- The sample store with a mountpoint of root `/tmp/a` and overlay `/tmp/b`. -/
def mountStore : Store := (sampleImage.Mountpoint sampleStore "/tmp/a" "/tmp/b").2

/-- The sample store after `childImage` has been copied to `bar` and then registered at `bar`:
the registration fails on its path row and leaves its transaction open. -/
def lockedStore : Store :=
  ((childImage.Copy sampleStore "bar").2.Register { extracts := true } childImage "bar").2

/-! ## Reachable stores -/

/-- A call that changes the catalog: `Register`, `Create`, `Copy`, `AddTag` or `Remove`, with
its arguments. For `Create`, `id` and `now` are the identifier and the clock it draws. -/
inductive Call where
  | register (layerData : Archive) (img : Image) (pth : String)
  | create (id : String) (now : Int) (layerData : Archive) (parent : Option Image)
      (pth comment : String)
  | copy (image : Image) (pth : String)
  | addTag (imageId tagName : String)
  | remove (img : Image)

/-- The store after a successful call; `none` when the call returns an error. -/
def Call.run (store : Store) : Call → Option Store
  | .register layerData img pth =>
    match store.Register layerData img pth with
    | (none, store1) => some store1
    | (some _, _) => none
  | .create id now layerData parent pth comment =>
    match store.Create id now layerData parent pth comment with
    | ((_, none), store1) => some store1
    | ((_, some _), _) => none
  | .copy image pth =>
    match image.Copy store pth with
    | (.ok _, store1) => some store1
    | (.error _, _) => none
  | .addTag imageId tagName =>
    match store.AddTag imageId tagName with
    | (none, store1) => some store1
    | (some _, _) => none
  | .remove img =>
    match store.Remove img with
    | (none, store1) => some store1
    | (some _, _) => none

/-- A sequence of calls, every one of which succeeds; `none` as soon as one returns an
error. -/
def runCalls : Store → List Call → Option Store
  | store, [] => some store
  | store, c :: rest =>
    match c.run store with
    | some store1 => runCalls store1 rest
    | none => none

/-- The image a call registers: the argument of `Register`, the image `Create` builds. -/
def Call.registered : Call → Option Image
  | .register _ img _ => some img
  | .create id now _ parent _ comment =>
    some { Id := id, Parent := (match parent with | some p => p.Id | none => ""),
           Comment := comment, Created := now }
  | _ => none

/-- Whether the image a call registers has a `Parent` that is empty or the `Id` of an image of
the catalog. Calls that register nothing pass. -/
def Call.parentKnown (store : Store) (c : Call) : Bool :=
  match c.registered with
  | none => true
  | some img =>
    decide (img.Parent = "") || store.images.any (fun p => decide (p.Id = img.Parent))

/-- Whether every call of a sequence passes `Call.parentKnown` in the store it is made on. -/
def parentsKnown : Store → List Call → Bool
  | _, [] => true
  | store, c :: rest =>
    c.parentKnown store &&
      match c.run store with
      | some store1 => parentsKnown store1 rest
      | none => true

/-- The lineage invariant of a store: every catalog image has a layer directory of its own
and a non-empty `Id`, and its `Parent` is empty or names a layer directory created before its
own. -/
structure Lineage (store : Store) : Prop where
  layered : ∀ i ∈ store.images, i.Id ∈ store.layers.ids
  named : ∀ i ∈ store.images, i.Id ≠ ""
  parented : ∀ i ∈ store.images, i.Parent = "" ∨ i.Parent ∈ store.layers.ids
  older : ∀ i ∈ store.images, i.Parent ∈ store.layers.ids →
    store.layers.ids.indexOf i.Parent < store.layers.ids.indexOf i.Id

/-- An image that names itself as its parent. -/
def selfParent : Image := { Id := "a", Parent := "a", Comment := "", Created := 1 }

/-- The fresh store after `Register(archive, selfParent, "loop")`. -/
def selfParentStore : Store :=
  (runCalls (New "/store") [.register { extracts := true } selfParent "loop"]).getD (New "/store")

/-- A sequence of calls: two creations, the second on top of the first, a copy, a tag, and
the removal of the first image. -/
def lineageCalls : List Call :=
  [.create "x" 1 { extracts := true } none "foo" "Testing",
   .create "y" 2 { extracts := true } (some sampleImage) "bar" "child",
   .copy sampleImage "baz",
   .addTag "y" "latest",
   .remove sampleImage]

/-- The fresh store after the calls of `lineageCalls`. -/
def lineageStore : Store := (runCalls (New "/store") lineageCalls).getD (New "/store")

/-! ## Lemmas on the object-relational layer -/

theorem getRow_of_mem {α κ : Type} [DecidableEq κ] (key : α → κ) (table : List α) (row : α)
    (h : row ∈ table) : ∃ r, getRow key table (key row) = some r ∧ key r = key row := by
  unfold getRow
  cases hf : table.find? (fun r => decide (key r = key row)) with
  | none =>
    rw [List.find?_eq_none] at hf
    have := hf row h
    simp at this
  | some r =>
    refine ⟨r, rfl, ?_⟩
    have := List.find?_some hf
    simpa using this

theorem getRow_append_fresh {α κ : Type} [DecidableEq κ] (key : α → κ) (table : List α)
    (row : α) (h : ∀ r ∈ table, key r ≠ key row) :
    getRow key (table ++ [row]) (key row) = some row := by
  unfold getRow
  rw [List.find?_append]
  have hnone : table.find? (fun r => decide (key r = key row)) = none := by
    rw [List.find?_eq_none]
    intro r hr
    simpa using h r hr
  rw [hnone]
  simp

theorem insertRow_fresh {α κ : Type} [DecidableEq κ] (columns : String) (key : α → κ)
    (table : List α) (row : α) (h : ∀ r ∈ table, key r ≠ key row) :
    insertRow columns key table row = .ok (table ++ [row]) := by
  unfold insertRow
  have hany : table.any (fun r => decide (key r = key row)) = false := by
    rw [List.any_eq_false]
    intro r hr
    simpa using h r hr
  rw [hany]
  simp

theorem insertRow_clash {α κ : Type} [DecidableEq κ] (columns : String) (key : α → κ)
    (table : List α) (row r : α) (hr : r ∈ table) (hkey : key r = key row) :
    insertRow columns key table row = .error (uniqueViolation columns) := by
  unfold insertRow
  have hany : table.any (fun r => decide (key r = key row)) = true :=
    List.any_eq_true.mpr ⟨r, hr, by simpa using hkey⟩
  rw [hany]
  simp

theorem insertRow_ok {α κ : Type} [DecidableEq κ] (columns : String) (key : α → κ)
    (table table1 : List α) (row : α) (h : insertRow columns key table row = .ok table1) :
    table1 = table ++ [row] ∧ ∀ r ∈ table, key r ≠ key row := by
  unfold insertRow at h
  by_cases hany : table.any (fun r => decide (key r = key row)) = true
  · simp [hany] at h
  · simp only [hany, Bool.false_eq_true, if_false, Except.ok.injEq] at h
    refine ⟨h.symm, ?_⟩
    intro r hr hkey
    exact hany (List.any_eq_true.mpr ⟨r, hr, by simpa using hkey⟩)

theorem write_unlocked {α : Type} (store : Store) (result : Except Error α)
    (h : store.locked = false) : store.write result = result := by
  simp [Store.write, h]

theorem write_locked {α : Type} (store : Store) (result : Except Error α)
    (h : store.locked = true) : store.write result = .error databaseLocked := by
  simp [Store.write, h]

theorem write_ok {α : Type} (store : Store) (result : Except Error α) (x : α)
    (h : store.write result = .ok x) : store.locked = false ∧ result = .ok x := by
  unfold Store.write at h
  by_cases hl : store.locked = true
  · simp [hl] at h
  · simp only [hl, Bool.false_eq_true, if_false] at h
    exact ⟨by simpa using hl, h⟩

theorem Mountpoint_ok_inv (store store1 : Store) (image : Image) (root rw : String)
    (mp : Mountpoint) (h : image.Mountpoint store root rw = (.ok mp, store1)) :
    mp = { Image := image.Id, Root := pathClean root, Rw := pathClean rw } ∧
    store1 = { store with mountpoints := store.mountpoints ++ [mp] } ∧
    store.locked = false ∧
    ∀ r ∈ store.mountpoints, r.Root ≠ pathClean root := by
  unfold Image.Mountpoint at h
  simp only at h
  cases hw : store.write (insertRow "mountpoints.Root" Mountpoint.Root store.mountpoints
      { Image := image.Id, Root := pathClean root, Rw := pathClean rw }) with
  | error e => rw [hw] at h; simp at h
  | ok mountpoints =>
    rw [hw] at h
    simp only [Prod.mk.injEq, Except.ok.injEq] at h
    obtain ⟨hmp, hst⟩ := h
    obtain ⟨hl, hins⟩ := write_ok _ _ _ hw
    obtain ⟨htab, hfresh⟩ := insertRow_ok _ _ _ _ _ hins
    refine ⟨hmp.symm, ?_, hl, hfresh⟩
    rw [← hst, htab, ← hmp]

/-! ## C1: `Register` and its effects on failure -/

/-- C1. `Register` is not atomic: in a fresh store where image `x` has been copied to path
`foo` before being registered, `Register(archive, x, "foo")` writes the layer directory, fails
on the path row with "Could not insert path info", and returns with the layer directory of
`x` in place and its transaction left open (the store is locked), while the images and paths
relations are as before the call. -/
theorem Register_error_keeps_layer :
    ((sampleImage.Copy (New "/store") "foo").2.Register { extracts := true } sampleImage "foo").1
      = some "Could not insert path info: UNIQUE constraint failed: paths.Path, paths.Image" ∧
    (sampleImage.Copy (New "/store") "foo").2.layers.ids = [] ∧
    ((sampleImage.Copy (New "/store") "foo").2.Register { extracts := true }
        sampleImage "foo").2.layers.ids = ["x"] ∧
    ((sampleImage.Copy (New "/store") "foo").2.Register { extracts := true }
        sampleImage "foo").2.images = (sampleImage.Copy (New "/store") "foo").2.images ∧
    ((sampleImage.Copy (New "/store") "foo").2.Register { extracts := true }
        sampleImage "foo").2.paths = (sampleImage.Copy (New "/store") "foo").2.paths ∧
    (sampleImage.Copy (New "/store") "foo").2.locked = false ∧
    ((sampleImage.Copy (New "/store") "foo").2.Register { extracts := true }
        sampleImage "foo").2.locked = true := by
  decide

/-! ## C2: copying to the same path twice -/

/-- C2. When the pair `(pth, image.Id)` is already in the paths relation, `image.Copy(pth)`
returns an error (the primary-key violation or, in a locked store, the refusal of the write)
and the store after the failure is the store before it. -/
theorem Copy_same_path_fails (store : Store) (image : Image) (pth : String)
    (h : ({ Path := pth, Image := image.Id } : Fs.Path) ∈ store.paths) :
    image.Copy store pth
      = (.error (if store.locked then databaseLocked
          else uniqueViolation "paths.Path, paths.Image"), store) := by
  have hins := insertRow_clash "paths.Path, paths.Image" Path.key store.paths
    { Path := pth, Image := image.Id } _ h rfl
  unfold Image.Copy
  by_cases hl : store.locked = true
  · simp [write_locked _ _ hl, hl]
  · have hl' : store.locked = false := by simpa using hl
    simp [write_unlocked _ _ hl', hins, hl']

/-- C2 at a concrete input: the image created at `foo` cannot be copied to `foo`. -/
theorem Copy_same_path_fails_witness :
    sampleImage.Copy sampleStore "foo"
      = (.error (if sampleStore.locked then databaseLocked
          else uniqueViolation "paths.Path, paths.Image"), sampleStore) :=
  Copy_same_path_fails sampleStore sampleImage "foo" (by decide)

/-! ## C3: duplicate mountpoint root -/

/-- C3. After `image.Mountpoint(root, rw)` has succeeded, a second `image.Mountpoint(root, rw')`
with the same root returns an error (the primary-key violation on `Root`), leaves the store as
it was, and the mountpoints relation holds exactly one row for that root (stored as
`path.Clean(root)`), the row of the first call, with the first `Rw` (stored as
`path.Clean(rw)`). -/
theorem Mountpoint_duplicate_root_fails (store store1 : Store) (image : Image)
    (root rw rw' : String) (mp : Mountpoint)
    (h : image.Mountpoint store root rw = (.ok mp, store1)) :
    image.Mountpoint store1 root rw' = (.error (uniqueViolation "mountpoints.Root"), store1) ∧
    (image.Mountpoint store1 root rw').2.mountpoints.filter
        (fun r => decide (r.Root = pathClean root))
      = [{ Image := image.Id, Root := pathClean root, Rw := pathClean rw }] ∧
    mp = { Image := image.Id, Root := pathClean root, Rw := pathClean rw } := by
  obtain ⟨hmp, hst, hl, hno⟩ := Mountpoint_ok_inv store store1 image root rw mp h
  have hl1 : store1.locked = false := by rw [hst]; exact hl
  have hfail : image.Mountpoint store1 root rw'
      = (.error (uniqueViolation "mountpoints.Root"), store1) := by
    have hins := insertRow_clash "mountpoints.Root" Mountpoint.Root store1.mountpoints
      { Image := image.Id, Root := pathClean root, Rw := pathClean rw' } mp
      (by rw [hst]; simp) (by rw [hmp])
    unfold Image.Mountpoint
    simp only [write_unlocked _ _ hl1, hins]
  refine ⟨hfail, ?_, hmp⟩
  rw [hfail]
  have hfilter : store.mountpoints.filter (fun r => decide (r.Root = pathClean root)) = [] := by
    rw [List.filter_eq_nil_iff]
    intro r hr
    simpa using hno r hr
  rw [hst, hmp]
  simp [List.filter_append, hfilter]

/-- C3 at a concrete input: the scenario of `TestMountpointDuplicateRoot`. -/
theorem Mountpoint_duplicate_root_fails_witness :
    sampleImage.Mountpoint (sampleImage.Mountpoint sampleStore "/tmp/a" "/tmp/b").2
        "/tmp/a" "/tmp/foobar"
      = (.error (uniqueViolation "mountpoints.Root"),
          (sampleImage.Mountpoint sampleStore "/tmp/a" "/tmp/b").2) ∧
    (sampleImage.Mountpoint (sampleImage.Mountpoint sampleStore "/tmp/a" "/tmp/b").2
        "/tmp/a" "/tmp/foobar").2.mountpoints.filter
        (fun r => decide (r.Root = pathClean "/tmp/a"))
      = [{ Image := sampleImage.Id, Root := pathClean "/tmp/a", Rw := pathClean "/tmp/b" }] ∧
    ({ Image := "x", Root := "/tmp/a", Rw := "/tmp/b" } : Mountpoint)
      = { Image := sampleImage.Id, Root := pathClean "/tmp/a", Rw := pathClean "/tmp/b" } :=
  Mountpoint_duplicate_root_fails sampleStore _ sampleImage "/tmp/a" "/tmp/b" "/tmp/foobar"
    { Image := "x", Root := "/tmp/a", Rw := "/tmp/b" } (by rfl)

/-! ## C4: tag round trip -/

/-- The tag round trip in a store that is not locked. For an image present in the images
relation and a tag name not yet in the tags relation, `AddTag(img.Id, t)` succeeds, adding the
one tag row and nothing else, and a following `GetByTag(t)` succeeds and returns the catalog
image whose `Id` is `img.Id`: the row `Get(img.Id)` finds, which is `img` itself when no other
row of the images relation carries its `Id`. -/
theorem AddTag_GetByTag_unlocked (store : Store) (img : Image) (t : String)
    (hunlocked : store.locked = false)
    (himg : img ∈ store.images) (hfresh : ∀ tag ∈ store.tags, tag.TagName ≠ t) :
    ∃ img1,
      store.AddTag img.Id t
        = (none, { store with tags := store.tags ++ [{ TagName := t, Image := img.Id }] }) ∧
      ({ store with tags := store.tags ++ [{ TagName := t, Image := img.Id }] } : Store).GetByTag t
        = .ok img1 ∧
      img1 ∈ store.images ∧ img1.Id = img.Id ∧
      store.Get img.Id = .ok (some img1) ∧
      ((∀ j ∈ store.images, j.Id = img.Id → j = img) → img1 = img) := by
  obtain ⟨r, hget, hid⟩ := getRow_of_mem Image.Id store.images img himg
  have hins := insertRow_fresh "tags.TagName" Tag.TagName store.tags ⟨t, img.Id⟩ hfresh
  have hlook := getRow_append_fresh Tag.TagName store.tags ⟨t, img.Id⟩ hfresh
  have hr : r ∈ store.images := by
    unfold getRow at hget
    exact List.mem_of_find?_eq_some hget
  refine ⟨r, ?_, ?_, hr, hid, ?_, fun huniq => huniq r hr hid⟩
  · simp only [Store.AddTag, Store.Get, hget, write_unlocked _ _ hunlocked, hins]
  · simp only [Store.GetByTag, Store.Get]
    simp only at hlook
    rw [hlook]
    simp only [hget]
  · simp only [Store.Get, hget]

/-- C4. The tag round trip fails in a store that a failed `Register` has left locked: in
`lockedStore` the image `x` is in the images relation and no tag exists, yet
`AddTag(x, "baz")` returns "database is locked" and adds no tag, so that `GetByTag("baz")`
finds no image. -/
theorem AddTag_fails_after_failed_Register :
    ((childImage.Copy sampleStore "bar").2.Register { extracts := true } childImage "bar").1
      = some "Could not insert path info: UNIQUE constraint failed: paths.Path, paths.Image" ∧
    sampleImage ∈ lockedStore.images ∧ lockedStore.tags = [] ∧
    lockedStore.AddTag sampleImage.Id "baz" = (some "database is locked", lockedStore) ∧
    lockedStore.GetByTag "baz" = .error "No image associated to tag \"baz\"" :=
  ⟨by decide, by decide, by decide, by decide, by rfl⟩

/-! ## C5: images and paths after a sequence of registrations -/

theorem Register_ok_inv (store store1 : Store) (layerData : Archive) (img : Image)
    (pth : String) (h : store.Register layerData img pth = (none, store1)) :
    store1 = { store with
      images := store.images ++ [img],
      paths := store.paths ++ [{ Path := pathClean pth, Image := img.Id }],
      layers := { store.layers with ids := store.layers.ids ++ [img.Id] } } ∧
    img.Id ∉ store.layers.ids ∧
    (∀ r ∈ store.images, r.Id ≠ img.Id) ∧
    img.Id ≠ "" ∧ store.locked = false := by
  unfold Store.Register LayerStore.AddLayer at h
  by_cases hdir : store.layers.hasDir img.Id = true
  · simp [hdir] at h
  · by_cases hex : layerData.extracts = true
    · simp only [hdir, hex, if_true, Bool.false_eq_true, if_false, Store.Begin] at h
      cases hw1 : Store.write
          { store with layers := { store.layers with ids := store.layers.ids ++ [img.Id] } }
          (insertRow "images.Id" Image.Id store.images img) with
      | error e => rw [hw1] at h; simp at h
      | ok images =>
        rw [hw1] at h
        simp only at h
        cases hw2 : Store.write
            { store with layers := { store.layers with ids := store.layers.ids ++ [img.Id] } }
            (insertRow "paths.Path, paths.Image" Path.key store.paths
              { Path := pathClean pth, Image := img.Id }) with
        | error e => rw [hw2] at h; simp at h
        | ok paths =>
          rw [hw2] at h
          simp only [Transaction.Commit, Prod.mk.injEq, true_and] at h
          obtain ⟨hl, hins1⟩ := write_ok _ _ _ hw1
          obtain ⟨-, hins2⟩ := write_ok _ _ _ hw2
          obtain ⟨himages, hfresh⟩ := insertRow_ok _ _ _ _ _ hins1
          obtain ⟨hpaths, -⟩ := insertRow_ok _ _ _ _ _ hins2
          simp only [LayerStore.hasDir, Bool.or_eq_true, decide_eq_true_eq, not_or] at hdir
          refine ⟨?_, hdir.2, hfresh, hdir.1, hl⟩
          rw [← h, himages, hpaths]
    · simp [hdir, hex] at h

theorem registerAll_inv (calls : List RegisterCall) :
    ∀ store store1 : Store, registerAll store calls = some store1 →
      store1.images = store.images ++ calls.map (fun c => c.img) ∧
      store1.paths = store.paths ++
        calls.map (fun c => ({ Path := pathClean c.pth, Image := c.img.Id } : Fs.Path)) ∧
      store1.layers.ids = store.layers.ids ++ calls.map (fun c => c.img.Id) ∧
      (store.layers.ids.Nodup → store1.layers.ids.Nodup) := by
  induction calls with
  | nil =>
    intro store store1 h
    simp [registerAll] at h
    subst h
    simp
  | cons c rest ih =>
    intro store store1 h
    unfold registerAll at h
    cases hr : store.Register c.layerData c.img c.pth with
    | mk err store2 =>
      rw [hr] at h
      cases err with
      | some e => simp at h
      | none =>
        simp only at h
        obtain ⟨hst, hfresh, -⟩ := Register_ok_inv store store2 c.layerData c.img c.pth hr
        obtain ⟨hi, hp, hl, hnd⟩ := ih store2 store1 h
        refine ⟨?_, ?_, ?_, ?_⟩
        · rw [hi, hst]; simp
        · rw [hp, hst]; simp
        · rw [hl, hst]; simp
        · intro hnod
          apply hnd
          rw [hst]
          simp only
          rw [List.nodup_append]
          refine ⟨hnod, by simp, ?_⟩
          intro a ha hb
          simp at hb
          subst hb
          exact hfresh ha

theorem Paths_spec (store : Store) :
    ∃ paths, store.Paths = .ok paths ∧ paths.Nodup ∧
      ∀ p, p ∈ paths ↔ ∃ row ∈ store.paths, row.Path = p := by
  refine ⟨_, rfl, ?_, ?_⟩
  · exact (List.perm_insertionSort _ _).nodup_iff.mpr (List.nodup_dedup _)
  · intro p
    rw [(List.perm_insertionSort _ _).mem_iff, List.mem_dedup, List.mem_map]

/-- C5, as stated, fails: after the one successful call `Register(archive, x, "foo/")` on a
fresh store, `Paths()` is `["foo"]` and does not contain the path string `foo/` of the call. -/
theorem Register_paths_not_literal :
    ∃ store1,
      registerAll (New "/store")
        [{ layerData := { extracts := true }, img := sampleImage, pth := "foo/" }] = some store1 ∧
      store1.Paths = .ok ["foo"] ∧ "foo/" ∉ ["foo"] :=
  ⟨_, rfl, by rfl, by decide⟩

/-- C5, amended. After any sequence of successful `Register(archive_i, img_i, path_i)` calls on
a freshly initialised store, the image ids are pairwise distinct, `Images()` returns exactly
the images of the calls (so exactly those N ids), and `Paths()` contains, without repetition,
exactly the strings `path.Clean(path_i)`. -/
theorem Register_images_paths (root : String) (calls : List RegisterCall) (store1 : Store)
    (h : registerAll (New root) calls = some store1) :
    (calls.map (fun c => c.img.Id)).Nodup ∧
    (∃ images, store1.Images = .ok images ∧
      images.map Image.Id = calls.map (fun c => c.img.Id) ∧ images.length = calls.length) ∧
    ∃ paths, store1.Paths = .ok paths ∧ paths.Nodup ∧
      ∀ p, p ∈ paths ↔ ∃ c ∈ calls, p = pathClean c.pth := by
  obtain ⟨hi, hp, hl, hnd⟩ := registerAll_inv calls (New root) store1 h
  refine ⟨?_, ?_, ?_⟩
  · have := hnd (by simp [New])
    rw [hl] at this
    simpa [New] using this
  · refine ⟨calls.map (fun c => c.img), ?_, ?_, ?_⟩
    · simp [Store.Images, Store.imageList, hi, New]
    · simp
    · simp
  · obtain ⟨paths, hps, hnod, hmem⟩ := Paths_spec store1
    refine ⟨paths, hps, hnod, ?_⟩
    intro p
    rw [hmem, hp]
    simp only [New, List.nil_append, List.mem_map, exists_exists_and_eq_and]
    constructor
    · rintro ⟨c, hc, rfl⟩; exact ⟨c, hc, rfl⟩
    · rintro ⟨c, hc, rfl⟩; exact ⟨c, hc, rfl⟩

/-- C5, amended, at a concrete input: two registrations, at `foo/` and at `./foo`. -/
theorem Register_images_paths_witness :
    (sampleCalls.map (fun c => c.img.Id)).Nodup ∧
    (∃ images, registeredStore.Images = .ok images ∧
      images.map Image.Id = sampleCalls.map (fun c => c.img.Id) ∧
      images.length = sampleCalls.length) ∧
    ∃ paths, registeredStore.Paths = .ok paths ∧ paths.Nodup ∧
      ∀ p, p ∈ paths ↔ ∃ c ∈ sampleCalls, p = pathClean c.pth :=
  Register_images_paths "/store" sampleCalls registeredStore (by rfl)

/-! ## C6: the layer stack -/

theorem layerPath_ne_empty (layers : LayerStore) (id : String) : layers.layerPath id ≠ "" := by
  intro h
  have := congrArg String.data h
  simp [LayerStore.layerPath] at this

theorem LayerStore_Get_of_mem (layers : LayerStore) (id : String) (h : id ∈ layers.ids) :
    layers.Get id = layers.layerPath id := by
  simp [LayerStore.Get, LayerStore.hasDir, h]

theorem layersLoop_chain (image : Image) (store : Store)
    (hempty : ∀ r ∈ store.images, r.Id ≠ "") :
    ∀ (rest : List Image) (cur : Image) (fuel : Nat) (acc : List String),
      parentChain store (cur :: rest) = true →
      (∀ i ∈ cur :: rest, i.Id ∈ store.layers.ids) →
      rest.length + 1 ≤ fuel →
      Image.layersLoop image store fuel (some cur) acc
        = some (acc ++ (cur :: rest).map (fun i => store.layers.layerPath i.Id), none) := by
  intro rest
  induction rest with
  | nil =>
    intro cur fuel acc hchain hlayers hfuel
    obtain ⟨n, rfl⟩ : ∃ n, fuel = n + 1 := ⟨fuel - 1, by simp at hfuel; omega⟩
    have hpar : cur.Parent = "" := by simpa [parentChain] using hchain
    have hget : getRow Image.Id store.images "" = none := by
      unfold getRow
      rw [List.find?_eq_none]
      intro r hr
      simpa using hempty r hr
    have hl := LayerStore_Get_of_mem store.layers cur.Id (hlayers cur (by simp))
    have hne := layerPath_ne_empty store.layers cur.Id
    unfold Image.layersLoop
    simp only [hl, hne, ne_eq, not_false_eq_true, if_true, Store.Get, hpar, hget]
    unfold Image.layersLoop
    simp
  | cons j rest ih =>
    intro cur fuel acc hchain hlayers hfuel
    obtain ⟨n, rfl⟩ : ∃ n, fuel = n + 1 := ⟨fuel - 1, by simp at hfuel; omega⟩
    simp only [parentChain, Bool.and_eq_true, decide_eq_true_eq] at hchain
    obtain ⟨hget, hrest⟩ := hchain
    have hl := LayerStore_Get_of_mem store.layers cur.Id (hlayers cur (by simp))
    have hne := layerPath_ne_empty store.layers cur.Id
    unfold Image.layersLoop
    simp only [hl, hne, ne_eq, not_false_eq_true, if_true, Store.Get, hget]
    rw [ih j n _ hrest (fun i hi => hlayers i (List.mem_cons_of_mem _ hi))
      (by simp at hfuel ⊢; omega)]
    simp

theorem layersLoop_never (image : Image) :
    ∀ (fuel : Nat) (acc : List String),
      Image.layersLoop image loopStore fuel
        (some { Id := "", Parent := "", Comment := "", Created := 1 }) acc = none := by
  intro fuel
  induction fuel with
  | zero => intro acc; rfl
  | succ n ih =>
    intro acc
    unfold Image.layersLoop
    have h1 : loopStore.layers.Get "" ≠ "" := by decide
    have h2 : loopStore.Get ""
        = .ok (some { Id := "", Parent := "", Comment := "", Created := 1 }) := by rfl
    simp only [h1, ne_eq, not_false_eq_true, if_true, h2]
    exact ih _

/-- C6, as stated, fails: in `loopStore` the chain of image `a` is `[a]` (`a` has the empty
`Parent`), it is acyclic and `a` has a layer directory, yet `a.layers()` never returns: the
walk looks the empty `Parent` up in the catalog, finds the image whose `Id` is empty, whose
own `Parent` is empty again, and goes on for ever. -/
theorem layers_empty_id_loops :
    parentChain loopStore [loopImage] = true ∧
    (∀ i ∈ [loopImage], i.Id ∈ loopStore.layers.ids) ∧
    ([loopImage].map Image.Id).Nodup ∧
    ∀ fuel, loopImage.layers loopStore fuel = none := by
  refine ⟨by decide, by decide, by decide, ?_⟩
  intro fuel
  cases fuel with
  | zero => rfl
  | succ n =>
    unfold Image.layers Image.layersLoop
    have h1 : loopStore.layers.Get loopImage.Id ≠ "" := by decide
    have h2 : loopStore.Get loopImage.Parent
        = .ok (some { Id := "", Parent := "", Comment := "", Created := 1 }) := by rfl
    simp only [h1, ne_eq, not_false_eq_true, if_true, h2]
    exact layersLoop_never _ n _

/-- C6, amended. In a store whose catalog holds no image with the empty `Id`, for an image
whose parent chain `image = i0, i1, ..., ik` (each next image the catalog image whose `Id` is
the `Parent` of the one before, `ik` with the empty `Parent`) has a layer directory for every
`i_j`, `image.layers()` returns after `k + 1` iterations, succeeds, and returns exactly
`[layerPath(i0), ..., layerPath(ik)]`: the image itself first, the root ancestor last. -/
theorem layers_stack_order (store : Store) (image : Image) (rest : List Image)
    (hempty : ∀ r ∈ store.images, r.Id ≠ "")
    (hchain : parentChain store (image :: rest) = true)
    (hlayers : ∀ i ∈ image :: rest, i.Id ∈ store.layers.ids)
    (fuel : Nat) (hfuel : rest.length + 1 ≤ fuel) :
    image.layers store fuel
      = some ((image :: rest).map (fun i => store.layers.layerPath i.Id), none) := by
  have := layersLoop_chain image store hempty rest image fuel [] hchain hlayers hfuel
  simpa [Image.layers] using this

/-- C6, amended, at a concrete input: the child image first, its parent last. -/
theorem layers_stack_order_witness :
    childImage.layers childStore 2
      = some ([childImage, sampleImage].map (fun i => childStore.layers.layerPath i.Id), none) :=
  layers_stack_order childStore childImage [sampleImage] (by decide) (by decide) (by decide)
    2 (by decide)

/-! ## C7: `Find` in bare form -/

theorem splitSlash_mem : ∀ (p e : List Char) (ch : Char),
    e ∈ splitSlash p → ch ∈ e → ch ∈ p := by
  intro p
  induction p with
  | nil =>
    intro e ch he hch
    simp [splitSlash] at he
    subst he
    simp at hch
  | cons c cs ih =>
    intro e ch he hch
    unfold splitSlash at he
    by_cases hc : c = '/'
    · simp only [hc, if_true, List.mem_cons] at he
      rcases he with rfl | he
      · simp at hch
      · exact List.mem_cons_of_mem _ (ih e ch he hch)
    · simp only [hc, if_false] at he
      cases hs : splitSlash cs with
      | nil =>
        rw [hs] at he
        simp at he
        subst he
        simp at hch
        subst hch
        simp
      | cons e0 es =>
        rw [hs] at he
        simp only [List.mem_cons] at he
        rcases he with rfl | he
        · simp only [List.mem_cons] at hch
          rcases hch with rfl | hch
          · simp
          · exact List.mem_cons_of_mem _ (ih e0 ch (by rw [hs]; simp) hch)
        · exact List.mem_cons_of_mem _ (ih e ch (by rw [hs]; simp [he]) hch)

theorem cleanElems_mem (rooted : Bool) : ∀ (els acc : List (List Char)) (e : List Char),
    e ∈ cleanElems rooted acc els → e ∈ acc ∨ e ∈ els := by
  intro els
  induction els with
  | nil =>
    intro acc e he
    simp [cleanElems] at he
    exact Or.inl he
  | cons x rest ih =>
    intro acc e he
    unfold cleanElems at he
    split at he
    · rcases ih _ _ he with h | h
      · exact Or.inl h
      · exact Or.inr (List.mem_cons_of_mem _ h)
    · split at he
      · split at he
        · split at he
          · rcases ih _ _ he with h | h
            · simp at h
            · exact Or.inr (List.mem_cons_of_mem _ h)
          · rcases ih _ _ he with h | h
            · simp at h; subst h; exact Or.inr (by simp)
            · exact Or.inr (List.mem_cons_of_mem _ h)
        · split at he
          · rcases ih _ _ he with h | h
            · simp only [List.mem_cons] at h
              rcases h with rfl | h
              · exact Or.inr (by simp)
              · exact Or.inl (by simpa using h)
            · exact Or.inr (List.mem_cons_of_mem _ h)
          · rcases ih _ _ he with h | h
            · exact Or.inl (List.mem_cons_of_mem _ h)
            · exact Or.inr (List.mem_cons_of_mem _ h)
      · rcases ih _ _ he with h | h
        · simp only [List.mem_cons] at h
          rcases h with rfl | h
          · exact Or.inr (by simp)
          · exact Or.inl h
        · exact Or.inr (List.mem_cons_of_mem _ h)

theorem joinSlash_mem : ∀ (es : List (List Char)) (ch : Char),
    ch ∈ joinSlash es → ch = '/' ∨ ∃ e ∈ es, ch ∈ e := by
  intro es
  induction es with
  | nil => intro ch h; simp [joinSlash] at h
  | cons e rest ih =>
    intro ch h
    cases rest with
    | nil =>
      simp [joinSlash] at h
      exact Or.inr ⟨e, by simp, h⟩
    | cons e2 rest2 =>
      simp only [joinSlash, List.mem_append, List.mem_cons] at h
      rcases h with h | h | h
      · exact Or.inr ⟨e, by simp, h⟩
      · exact Or.inl h
      · rcases ih ch h with h' | ⟨e', he', hch⟩
        · exact Or.inl h'
        · exact Or.inr ⟨e', List.mem_cons_of_mem _ he', hch⟩

theorem cleanChars_mem (p : List Char) (ch : Char) (h : ch ∈ cleanChars p) :
    ch = '/' ∨ ch = '.' ∨ ch ∈ p := by
  unfold cleanChars at h
  cases p with
  | nil => simp at h; exact Or.inr (Or.inl h)
  | cons c cs =>
    simp only at h
    by_cases hout : ((if decide (c = '/') = true then ['/'] else []) ++
        joinSlash (cleanElems (decide (c = '/')) [] (splitSlash (c :: cs)))) = []
    · rw [if_pos hout] at h
      simp at h; exact Or.inr (Or.inl h)
    · rw [if_neg hout] at h
      simp only [List.mem_append] at h
      rcases h with h | h
      · by_cases hr : decide (c = '/') = true
        · rw [if_pos hr] at h; simp at h; exact Or.inl h
        · rw [if_neg hr] at h; simp at h
      · rcases joinSlash_mem _ _ h with h' | ⟨e, he, hch⟩
        · exact Or.inl h'
        · rcases cleanElems_mem _ _ _ _ he with h'' | h''
          · simp at h''
          · exact Or.inr (Or.inr (splitSlash_mem _ _ _ h'' hch))

theorem pathClean_no_colon (s : String) (h : ':' ∉ s.data) : ':' ∉ (pathClean s).data := by
  intro hc
  rcases cleanChars_mem s.data ':' hc with h1 | h1 | h1
  · exact absurd h1 (by decide)
  · exact absurd h1 (by decide)
  · exact h h1

theorem splitColon2_no_colon : ∀ l : List Char, ':' ∉ l → splitColon2 l = [l] := by
  intro l
  induction l with
  | nil => intro _; rfl
  | cons c cs ih =>
    intro h
    simp only [List.mem_cons, not_or] at h
    have hc : c ≠ ':' := fun e => h.1 e.symm
    unfold splitColon2
    simp only [hc, if_false]
    rw [ih h.2]

theorem mem_imagesAtPath (store : Store) (pth : String) (img : Image) :
    img ∈ store.imagesAtPath pth ↔ Store.Bound store pth img := by
  have hrows : ∀ row : Fs.Path,
      row ∈ (store.paths.filter (fun p => decide (p.Path = pth))).insertionSort
          (fun a b => a.Image ≤ b.Image) ↔ row ∈ store.paths ∧ row.Path = pth := by
    intro row
    rw [(List.perm_insertionSort _ _).mem_iff, List.mem_filter, decide_eq_true_eq]
  unfold Store.imagesAtPath Store.Bound
  simp only [List.mem_flatMap, List.mem_filter, decide_eq_true_eq]
  constructor
  · rintro ⟨row, hrow, hi, him⟩
    obtain ⟨hmem, hp⟩ := (hrows row).mp hrow
    refine ⟨hi, ?_⟩
    have : row = { Path := pth, Image := img.Id } := by
      cases row; simp at hp him; simp [hp, him]
    rw [← this]; exact hmem
  · rintro ⟨hi, hrow⟩
    exact ⟨_, (hrows _).mpr ⟨hrow, rfl⟩, hi, rfl⟩

theorem newestFirst_head (images : List Image) :
    (newestFirst images = [] ∧ images = []) ∨
    ∃ img rest, newestFirst images = img :: rest ∧ img ∈ images ∧
      ∀ j ∈ images, j.Created ≤ img.Created := by
  haveI : IsTotal Image (fun a b => b.Created ≤ a.Created) := ⟨fun a b => le_total _ _⟩
  haveI : IsTrans Image (fun a b => b.Created ≤ a.Created) :=
    ⟨fun a b c hab hbc => le_trans hbc hab⟩
  have hperm : (newestFirst images).Perm images := List.perm_insertionSort _ _
  have hsorted : (newestFirst images).Sorted (fun a b => b.Created ≤ a.Created) :=
    List.sorted_insertionSort _ _
  cases hn : newestFirst images with
  | nil =>
    left
    rw [hn] at hperm
    exact ⟨rfl, hperm.symm.eq_nil⟩
  | cons img rest =>
    right
    rw [hn] at hperm hsorted
    refine ⟨img, rest, rfl, hperm.mem_iff.mp (by simp), ?_⟩
    intro j hj
    have hj' : j ∈ img :: rest := hperm.mem_iff.mpr hj
    simp only [List.mem_cons] at hj'
    rcases hj' with rfl | hj'
    · exact le_refl _
    · exact List.rel_of_sorted_cons hsorted j hj'

/-- C7, as stated, fails: in the sample store nothing is bound to path `x`, yet `Find("x")`
returns the image whose `Id` is `x` instead of absent: `Find` first looks its argument up as an
image id. -/
theorem Find_resolves_id_first :
    ':' ∉ "x".data ∧ (∀ row ∈ sampleStore.paths, row.Path ≠ "x") ∧
    sampleStore.Find "x" = .ok (some sampleImage) :=
  ⟨by decide, by decide, by rfl⟩

/-- C7, amended. For a spec string `s` that contains no `:`, with `c = path.Clean(s)`: when the
catalog holds an image whose `Id` is `c`, `Find(s)` returns that image; otherwise `Find(s)`
returns an image bound to path `c` in the paths relation with the greatest `Created` among the
images bound to `c`, and returns absent (nil, nil) when no image is bound to path `c`. -/
theorem Find_bare (store : Store) (s : String) (h : ':' ∉ s.data) :
    (∀ img, store.Get (pathClean s) = .ok (some img) → store.Find s = .ok (some img)) ∧
    (store.Get (pathClean s) = .ok none →
      (∃ img, store.Find s = .ok (some img) ∧ Store.Bound store (pathClean s) img ∧
        ∀ j, Store.Bound store (pathClean s) j → j.Created ≤ img.Created) ∨
      (store.Find s = .ok none ∧ ∀ j, ¬ Store.Bound store (pathClean s) j)) := by
  constructor
  · intro img hget
    unfold Store.Find
    simp only [hget]
  · intro hget
    have hsplit := splitColon2_no_colon _ (pathClean_no_colon s h)
    have hfind : store.Find s = .ok ((newestFirst (store.imagesAtPath (pathClean s))).head?) := by
      unfold Store.Find
      simp only [hget, hsplit, List.headD_cons]
      cases hn : newestFirst (store.imagesAtPath (pathClean s)) with
      | nil => simp [hn]
      | cons a l => simp [hn]
    rcases newestFirst_head (store.imagesAtPath (pathClean s)) with ⟨hn, hnil⟩ | ⟨img, rest, hn, hmem, hmax⟩
    · right
      refine ⟨by rw [hfind, hn]; rfl, ?_⟩
      intro j hj
      have := (mem_imagesAtPath store _ j).mpr hj
      rw [hnil] at this
      simp at this
    · left
      refine ⟨img, by rw [hfind, hn]; rfl, (mem_imagesAtPath store _ img).mp hmem, ?_⟩
      intro j hj
      exact hmax j ((mem_imagesAtPath store _ j).mpr hj)

/-- C7, amended, at a concrete input: `Find("foo/")` in the sample store. -/
theorem Find_bare_witness :
    (∀ img, sampleStore.Get (pathClean "foo/") = .ok (some img) →
      sampleStore.Find "foo/" = .ok (some img)) ∧
    (sampleStore.Get (pathClean "foo/") = .ok none →
      (∃ img, sampleStore.Find "foo/" = .ok (some img) ∧
        Store.Bound sampleStore (pathClean "foo/") img ∧
        ∀ j, Store.Bound sampleStore (pathClean "foo/") j → j.Created ≤ img.Created) ∨
      (sampleStore.Find "foo/" = .ok none ∧
        ∀ j, ¬ Store.Bound sampleStore (pathClean "foo/") j)) :=
  Find_bare sampleStore "foo/" (by decide)

/-! ## C8: `RemoveRegexp` -/

theorem Remove_spec (store : Store) (img : Image) :
    (store.Remove img = (some databaseLocked, store) ∧ store.locked = true) ∨
    (store.Remove img
        = (none, { store with images := deleteRow Image.Id store.images img.Id }) ∧
      store.locked = false) := by
  unfold Store.Remove
  by_cases hl : store.locked = true
  · left
    simp [write_locked _ _ hl, hl]
  · right
    have hl' : store.locked = false := by simpa using hl
    simp [write_unlocked _ _ hl', hl']

theorem removeEach_spec : ∀ (imgs : List Image) (store : Store),
    (removeEach store imgs).2.paths = store.paths ∧
    ∀ img ∈ store.images, img ∉ (removeEach store imgs).2.images →
      ∃ i ∈ imgs, i.Id = img.Id := by
  intro imgs
  induction imgs with
  | nil =>
    intro store
    refine ⟨rfl, ?_⟩
    intro img himg hgone
    exact absurd himg hgone
  | cons i rest ih =>
    intro store
    rcases Remove_spec store i with ⟨hrem, -⟩ | ⟨hrem, -⟩
    · have hstep : removeEach store (i :: rest) = (some databaseLocked, store) := by
        simp [removeEach, hrem]
      rw [hstep]
      refine ⟨rfl, ?_⟩
      intro img himg hgone
      exact absurd himg hgone
    · have hstep : removeEach store (i :: rest)
          = removeEach { store with images := deleteRow Image.Id store.images i.Id } rest := by
        simp [removeEach, hrem]
      rw [hstep]
      obtain ⟨hp, hrm⟩ := ih { store with images := deleteRow Image.Id store.images i.Id }
      refine ⟨hp, ?_⟩
      intro img himg hgone
      by_cases hid : img.Id = i.Id
      · exact ⟨i, by simp, hid.symm⟩
      · have hin : img ∈ deleteRow Image.Id store.images i.Id := by
          simp [deleteRow, himg, hid]
        obtain ⟨i', hi', hid'⟩ := hrm img hin hgone
        exact ⟨i', List.mem_cons_of_mem _ hi', hid'⟩

theorem RemoveInPath_spec (store : Store) (pth : String) :
    (store.RemoveInPath pth).2.paths = store.paths ∧
    ∀ img ∈ store.images, img ∉ (store.RemoveInPath pth).2.images →
      ({ Path := pathClean pth, Image := img.Id } : Fs.Path) ∈ store.paths := by
  have hdef : store.RemoveInPath pth
      = removeEach store (newestFirst (store.imagesAtPath (pathClean pth))) := by
    simp [Store.RemoveInPath, Store.List, Store.imageList]
  rw [hdef]
  obtain ⟨hp, hrm⟩ := removeEach_spec (newestFirst (store.imagesAtPath (pathClean pth))) store
  refine ⟨hp, ?_⟩
  intro img himg hgone
  obtain ⟨i, hi, hid⟩ := hrm img himg hgone
  have hi' : i ∈ store.imagesAtPath (pathClean pth) :=
    (List.perm_insertionSort _ _).mem_iff.mp hi
  have := ((mem_imagesAtPath store _ i).mp hi').2
  rw [hid] at this
  exact this

theorem removeMatching_spec (matchString : String → String → Except Error Bool)
    (pattern : String) : ∀ (ps : List String) (store : Store),
    (removeMatching matchString pattern store ps).2.paths = store.paths ∧
    ∀ img ∈ store.images, img ∉ (removeMatching matchString pattern store ps).2.images →
      ∃ p ∈ ps, matchString pattern p = .ok true ∧
        ({ Path := pathClean p, Image := img.Id } : Fs.Path) ∈ store.paths := by
  intro ps
  induction ps with
  | nil =>
    intro store
    refine ⟨rfl, ?_⟩
    intro img himg hgone
    exact absurd himg hgone
  | cons p rest ih =>
    intro store
    unfold removeMatching
    cases hm : matchString pattern p with
    | error e =>
      refine ⟨rfl, ?_⟩
      intro img himg hgone
      exact absurd himg hgone
    | ok b =>
      cases b with
      | false =>
        simp only
        obtain ⟨hp, hrm⟩ := ih store
        refine ⟨hp, ?_⟩
        intro img himg hgone
        obtain ⟨q, hq, hmq, hrow⟩ := hrm img himg hgone
        exact ⟨q, List.mem_cons_of_mem _ hq, hmq, hrow⟩
      | true =>
        simp only
        obtain ⟨hp1, hrm1⟩ := RemoveInPath_spec store p
        cases hr : store.RemoveInPath p with
        | mk err store1 =>
          rw [hr] at hp1 hrm1
          simp only at hp1 hrm1
          cases err with
          | some e =>
            simp only
            refine ⟨hp1, ?_⟩
            intro img himg hgone
            exact ⟨p, by simp, hm, hrm1 img himg hgone⟩
          | none =>
            simp only
            obtain ⟨hp, hrm⟩ := ih store1
            refine ⟨hp.trans hp1, ?_⟩
            intro img himg hgone
            by_cases h1 : img ∈ store1.images
            · obtain ⟨q, hq, hmq, hrow⟩ := hrm img h1 hgone
              exact ⟨q, List.mem_cons_of_mem _ hq, hmq, by rw [← hp1]; exact hrow⟩
            · exact ⟨p, by simp, hm, hrm1 img himg h1⟩

/-- C8, as stated, fails: the pattern `foo` matches only a proper substring of the path
`foobar` (as a whole it matches the string `foo` alone), and `RemoveRegexp("foo")` removes the
image bound to the one path `foobar`. -/
theorem RemoveRegexp_substring_match_removes :
    literalMatchString "foo" "foobar" = .ok true ∧ "foo" ≠ "foobar" ∧
    sampleImage ∈ regexpStore.images ∧
    (∀ row ∈ regexpStore.paths, row.Image = sampleImage.Id → row.Path = "foobar") ∧
    sampleImage ∉ (regexpStore.RemoveRegexp literalMatchString "foo").2.images :=
  ⟨by rfl, by decide, by decide, by decide, by decide⟩

/-- C8, amended. `RemoveRegexp(pattern)` removes an image only if the paths relation holds a
path `p` in which `regexp.MatchString(pattern, p)` reports a match (a match anywhere in `p`:
the pattern is not anchored to the whole string) and the image is bound to `path.Clean(p)`;
every other image is left in the images relation. -/
theorem RemoveRegexp_removes_only_matched (matchString : String → String → Except Error Bool)
    (store : Store) (pattern : String) (img : Image) (himg : img ∈ store.images)
    (hgone : img ∉ (store.RemoveRegexp matchString pattern).2.images) :
    ∃ row ∈ store.paths, matchString pattern row.Path = .ok true ∧
      ({ Path := pathClean row.Path, Image := img.Id } : Fs.Path) ∈ store.paths := by
  have hdef : store.RemoveRegexp matchString pattern = removeMatching matchString pattern store
      (((store.paths.map (fun p => p.Path)).dedup).insertionSort (fun a b => a ≤ b)) := by
    simp [Store.RemoveRegexp, Store.Paths]
  rw [hdef] at hgone
  obtain ⟨p, hp, hm, hrow⟩ := (removeMatching_spec matchString pattern _ store).2 img himg hgone
  rw [(List.perm_insertionSort _ _).mem_iff, List.mem_dedup, List.mem_map] at hp
  obtain ⟨row, hrowmem, rfl⟩ := hp
  exact ⟨row, hrowmem, hm, hrow⟩

/-- C8, amended, at a concrete input: the image removed by `RemoveRegexp("foo")` is bound to
`foobar`, in which `foo` occurs. -/
theorem RemoveRegexp_removes_only_matched_witness :
    ∃ row ∈ regexpStore.paths, literalMatchString "foo" row.Path = .ok true ∧
      ({ Path := pathClean row.Path, Image := sampleImage.Id } : Fs.Path) ∈ regexpStore.paths :=
  RemoveRegexp_removes_only_matched literalMatchString regexpStore "foo" sampleImage
    (by decide) (by decide)

/-! ## C9: the catalog step of `Mount` -/

/-- C9, as stated, fails: `mountStore` holds a row whose `Root` is `/tmp/a`, with `Rw`
`/tmp/b`; the catalog step of `Mount("/tmp/a", "/tmp/c")` does not select it (the fetch asks
for the pair `Root`, `Rw`), tries to create a row and fails with "Could not create
mountpoint". -/
theorem mountRow_same_root_other_rw_fails :
    (∃ row ∈ mountStore.mountpoints, row.Root = "/tmp/a") ∧
    sampleImage.mountRow mountStore "/tmp/a" "/tmp/c"
      = (.error "Could not create mountpoint: UNIQUE constraint failed: mountpoints.Root",
          mountStore) :=
  ⟨⟨{ Image := "x", Root := "/tmp/a", Rw := "/tmp/b" }, by decide, rfl⟩, by rfl⟩

/-- C9, amended. If the mountpoints relation already holds a row whose `Root` is the given
root and whose `Rw` is the given rw, then the catalog step of `image.Mount(root, rw)` selects
such an existing row, does not fail, and leaves the relation as it was (no row is
inserted). -/
theorem mountRow_reuses (store : Store) (image : Image) (root rw : String)
    (h : ∃ row ∈ store.mountpoints, row.Root = root ∧ row.Rw = rw) :
    ∃ mp ∈ store.mountpoints, mp.Root = root ∧ mp.Rw = rw ∧
      image.mountRow store root rw = (.ok mp, store) := by
  obtain ⟨row, hrow, hroot, hrw⟩ := h
  have hmem : row ∈ store.mountpoints.filter
      (fun mp => decide (mp.Root = root) && decide (mp.Rw = rw)) := by
    simp [List.mem_filter, hrow, hroot, hrw]
  cases hf : store.mountpoints.filter
      (fun mp => decide (mp.Root = root) && decide (mp.Rw = rw)) with
  | nil => rw [hf] at hmem; simp at hmem
  | cons mp rest =>
    have hmp : mp ∈ store.mountpoints.filter
        (fun mp => decide (mp.Root = root) && decide (mp.Rw = rw)) := by rw [hf]; simp
    simp only [List.mem_filter, Bool.and_eq_true, decide_eq_true_eq] at hmp
    refine ⟨mp, hmp.1, hmp.2.1, hmp.2.2, ?_⟩
    simp only [Image.mountRow, Store.FetchMountpoint, hf]

/-- C9, amended, at a concrete input: `Mount("/tmp/a", "/tmp/b")` on `mountStore`. -/
theorem mountRow_reuses_witness :
    ∃ mp ∈ mountStore.mountpoints, mp.Root = "/tmp/a" ∧ mp.Rw = "/tmp/b" ∧
      sampleImage.mountRow mountStore "/tmp/a" "/tmp/b" = (.ok mp, mountStore) :=
  mountRow_reuses mountStore sampleImage "/tmp/a" "/tmp/b"
    ⟨{ Image := "x", Root := "/tmp/a", Rw := "/tmp/b" }, by decide, rfl, rfl⟩

/-! ## C10: the union branch specification -/

theorem foldl_append_acc : ∀ (l : List String) (acc : String),
    l.foldl (fun r s => r ++ s) acc = acc ++ l.foldl (fun r s => r ++ s) "" := by
  intro l
  induction l with
  | nil => intro acc; simp
  | cons a rest ih =>
    intro acc
    simp only [List.foldl_cons]
    rw [ih (acc ++ a), ih ("" ++ a)]
    simp [String.append_assoc]

theorem join_cons (a : String) (l : List String) :
    String.join (a :: l) = a ++ String.join l := by
  unfold String.join
  simp only [List.foldl_cons]
  rw [foldl_append_acc]
  simp

theorem roBranches_acc : ∀ (layers : List String) (acc : String),
    layers.foldl (fun acc layer => acc ++ (layer ++ "=ro:")) acc
      = acc ++ String.join (layers.map (fun layer => layer ++ "=ro:")) := by
  intro layers
  induction layers with
  | nil => intro acc; simp [String.join]
  | cons l rest ih =>
    intro acc
    simp only [List.foldl_cons, List.map_cons]
    rw [ih, join_cons, String.append_assoc]

theorem branches_eq (mountpoint : Mountpoint) (layers : List String) :
    branches mountpoint layers
      = "br:" ++ mountpoint.Rw ++ "=rw:" ++ String.join (layers.map (fun layer => layer ++ "=ro:")) := by
  unfold branches roBranches
  rw [roBranches_acc]
  apply String.ext
  simp [String.append_assoc]

/-- C10. Whenever `Mount` has its mountpoint `mp` (overlay directory `mp.Rw`), the folders are
created and `layers()` returns the stack `[l1, ..., ln]`, `Mount` calls `mount` on `mp.Root`
with the branch string `"br:" ++ rw ++ "=rw:" ++ l1 ++ "=ro:" ++ ... ++ ln ++ "=ro:"`: the
read-write branch first, then every layer as a read-only branch in stack order, each followed
by a colon. -/
theorem Mount_branches (image : Image) (createFolders : Mountpoint → Option Error)
    (store store1 : Store) (fuel : Nat) (root rw : String) (mp : Mountpoint)
    (layers : List String)
    (hrow : image.mountRow store root rw = (.ok mp, store1))
    (hfolders : createFolders mp = none)
    (hlayers : image.layers store1 fuel = some (layers, none)) :
    image.mountCall createFolders store fuel root rw
      = some (.ok (mp,
          { source := "none", target := mp.Root, fstype := "aufs", flags := 0,
            data := "br:" ++ mp.Rw ++ "=rw:" ++
              String.join (layers.map (fun layer => layer ++ "=ro:")) }), store1) := by
  unfold Image.mountCall
  simp only [hrow, hfolders, hlayers, branches_eq]

/-- C10 at a concrete input: the child image mounted on `/tmp/a` with overlay `/tmp/b`. -/
theorem Mount_branches_witness :
    childImage.mountCall (fun _ => none) childStore 2 "/tmp/a" "/tmp/b"
      = some (.ok ({ Image := "y", Root := "/tmp/a", Rw := "/tmp/b" },
          { source := "none",
            target := ({ Image := "y", Root := "/tmp/a", Rw := "/tmp/b" } : Mountpoint).Root,
            fstype := "aufs", flags := 0,
            data := "br:" ++ ({ Image := "y", Root := "/tmp/a", Rw := "/tmp/b" } : Mountpoint).Rw
              ++ "=rw:" ++ String.join
                (["/store/layers/y", "/store/layers/x"].map (fun layer => layer ++ "=ro:")) }),
          (childImage.Mountpoint childStore "/tmp/a" "/tmp/b").2) :=
  Mount_branches childImage (fun _ => none) childStore _ 2 "/tmp/a" "/tmp/b"
    { Image := "y", Root := "/tmp/a", Rw := "/tmp/b" } ["/store/layers/y", "/store/layers/x"]
    (by rfl) rfl (by rfl)

/-! ## C11: the lineage walk in reachable stores -/

theorem Lineage_New (root : String) : Lineage (New root) := by
  constructor <;> intro i hi <;> simp [New] at hi

theorem Lineage_Register (store store1 : Store) (layerData : Archive) (img : Image)
    (pth : String) (hinv : Lineage store)
    (hpar : img.Parent = "" ∨ ∃ p ∈ store.images, p.Id = img.Parent)
    (h : store.Register layerData img pth = (none, store1)) : Lineage store1 := by
  obtain ⟨hst, hfresh, -, hid, -⟩ := Register_ok_inv store store1 layerData img pth h
  have himgs : store1.images = store.images ++ [img] := by rw [hst]
  have hids : store1.layers.ids = store.layers.ids ++ [img.Id] := by rw [hst]
  have hpar' : img.Parent = "" ∨ img.Parent ∈ store.layers.ids := by
    rcases hpar with h0 | ⟨p, hp, hpid⟩
    · exact Or.inl h0
    · exact Or.inr (hpid ▸ hinv.layered p hp)
  constructor
  · intro i hi
    rw [himgs, List.mem_append] at hi
    rw [hids, List.mem_append]
    rcases hi with hi | hi
    · exact Or.inl (hinv.layered i hi)
    · simp at hi; subst hi; simp
  · intro i hi
    rw [himgs, List.mem_append] at hi
    rcases hi with hi | hi
    · exact hinv.named i hi
    · simp at hi; subst hi; exact hid
  · intro i hi
    rw [himgs, List.mem_append] at hi
    rw [hids, List.mem_append]
    rcases hi with hi | hi
    · rcases hinv.parented i hi with h0 | h1
      · exact Or.inl h0
      · exact Or.inr (Or.inl h1)
    · simp at hi; subst hi
      rcases hpar' with h0 | h1
      · exact Or.inl h0
      · exact Or.inr (Or.inl h1)
  · intro i hi hp
    rw [himgs, List.mem_append] at hi
    rw [hids] at hp ⊢
    rcases hi with hi | hi
    · have hiid := hinv.layered i hi
      have hpin : i.Parent ∈ store.layers.ids := by
        rcases hinv.parented i hi with h0 | h1
        · rw [List.mem_append] at hp
          rcases hp with hp | hp
          · exact hp
          · simp at hp
            exact absurd (hp.symm.trans h0) hid
        · exact h1
      rw [List.indexOf_append_of_mem hpin, List.indexOf_append_of_mem hiid]
      exact hinv.older i hi hpin
    · simp at hi; subst hi
      have hpin : i.Parent ∈ store.layers.ids := by
        rcases hpar' with h0 | h1
        · rw [List.mem_append] at hp
          rcases hp with hp | hp
          · exact hp
          · simp at hp
            exact absurd (hp.symm.trans h0) hid
        · exact h1
      rw [List.indexOf_append_of_mem hpin, List.indexOf_append_of_not_mem hfresh]
      have := List.indexOf_lt_length.mpr hpin
      omega

theorem Lineage_images_sub (store store1 : Store) (hinv : Lineage store)
    (hl : store1.layers = store.layers) (hsub : ∀ i ∈ store1.images, i ∈ store.images) :
    Lineage store1 := by
  constructor
  · intro i hi; rw [hl]; exact hinv.layered i (hsub i hi)
  · intro i hi; exact hinv.named i (hsub i hi)
  · intro i hi; rw [hl]; exact hinv.parented i (hsub i hi)
  · intro i hi; rw [hl]; exact hinv.older i (hsub i hi)

theorem run_register_some (store store1 : Store) (layerData : Archive) (img : Image)
    (pth : String) (h : (Call.register layerData img pth).run store = some store1) :
    store.Register layerData img pth = (none, store1) := by
  simp only [Call.run] at h
  split at h
  · rename_i s2 heq
    simp only [Option.some.injEq] at h
    rw [heq, h]
  · simp at h

theorem run_create_some (store store1 : Store) (id : String) (now : Int)
    (layerData : Archive) (parent : Option Image) (pth comment : String) (img : Image)
    (hreg : (Call.create id now layerData parent pth comment).registered = some img)
    (h : (Call.create id now layerData parent pth comment).run store = some store1) :
    store.Register layerData img pth = (none, store1) := by
  cases parent with
  | none =>
    simp only [Call.registered, Option.some.injEq] at hreg
    subst hreg
    simp only [Call.run, Store.Create] at h
    split at h
    · rename_i i s2 heq
      simp only [Option.some.injEq] at h
      simp only [Prod.mk.injEq] at heq
      obtain ⟨⟨-, h1⟩, h2⟩ := heq
      rw [← h, ← h2, ← h1]
    · simp at h
  | some p =>
    simp only [Call.registered, Option.some.injEq] at hreg
    subst hreg
    simp only [Call.run, Store.Create] at h
    split at h
    · rename_i i s2 heq
      simp only [Option.some.injEq] at h
      simp only [Prod.mk.injEq] at heq
      obtain ⟨⟨-, h1⟩, h2⟩ := heq
      rw [← h, ← h2, ← h1]
    · simp at h

theorem run_copy_some (store store1 : Store) (image : Image) (pth : String)
    (h : (Call.copy image pth).run store = some store1) :
    store1.images = store.images ∧ store1.layers = store.layers := by
  simp only [Call.run] at h
  split at h
  · rename_i r s2 heq
    simp only [Option.some.injEq] at h
    subst h
    unfold Image.Copy at heq
    split at heq
    · simp at heq
    · simp only [Prod.mk.injEq] at heq
      rw [← heq.2]
      exact ⟨rfl, rfl⟩
  · simp at h

theorem run_addTag_some (store store1 : Store) (imageId tagName : String)
    (h : (Call.addTag imageId tagName).run store = some store1) :
    store1.images = store.images ∧ store1.layers = store.layers := by
  simp only [Call.run] at h
  split at h
  · rename_i s2 heq
    simp only [Option.some.injEq] at h
    subst h
    unfold Store.AddTag at heq
    split at heq
    · simp at heq
    · simp at heq
    · split at heq
      · simp at heq
      · simp only [Prod.mk.injEq, true_and] at heq
        rw [← heq]
        exact ⟨rfl, rfl⟩
  · simp at h

theorem run_remove_some (store store1 : Store) (img : Image)
    (h : (Call.remove img).run store = some store1) :
    store1.images = deleteRow Image.Id store.images img.Id ∧ store1.layers = store.layers := by
  simp only [Call.run] at h
  rcases Remove_spec store img with ⟨hrem, -⟩ | ⟨hrem, -⟩
  · rw [hrem] at h; simp at h
  · rw [hrem] at h
    simp only [Option.some.injEq] at h
    subst h
    exact ⟨rfl, rfl⟩

theorem Lineage_run (store store1 : Store) (c : Call) (hinv : Lineage store)
    (hknown : c.parentKnown store = true) (h : c.run store = some store1) :
    Lineage store1 := by
  cases c with
  | register layerData img pth =>
    simp only [Call.parentKnown, Call.registered, Bool.or_eq_true,
      decide_eq_true_eq, List.any_eq_true] at hknown
    exact Lineage_Register store store1 layerData img pth hinv hknown
      (run_register_some _ _ _ _ _ h)
  | create id now layerData parent pth comment =>
    cases hreg : (Call.create id now layerData parent pth comment).registered with
    | none => cases parent <;> simp [Call.registered] at hreg
    | some img =>
      simp only [Call.parentKnown, hreg, Bool.or_eq_true,
        decide_eq_true_eq, List.any_eq_true] at hknown
      exact Lineage_Register store store1 layerData img pth hinv hknown
        (run_create_some _ _ _ _ _ _ _ _ img hreg h)
  | copy image pth =>
    obtain ⟨hi, hl⟩ := run_copy_some _ _ _ _ h
    exact Lineage_images_sub store _ hinv hl (fun i h1 => hi ▸ h1)
  | addTag imageId tagName =>
    obtain ⟨hi, hl⟩ := run_addTag_some _ _ _ _ h
    exact Lineage_images_sub store _ hinv hl (fun i h1 => hi ▸ h1)
  | remove img =>
    obtain ⟨hi, hl⟩ := run_remove_some _ _ _ h
    refine Lineage_images_sub store _ hinv hl ?_
    intro i h1
    rw [hi] at h1
    simp only [deleteRow, List.mem_filter] at h1
    exact h1.1

theorem Lineage_runCalls (calls : List Call) :
    ∀ store store1 : Store, Lineage store → parentsKnown store calls = true →
      runCalls store calls = some store1 → Lineage store1 := by
  induction calls with
  | nil =>
    intro store store1 hinv _ h
    simp only [runCalls, Option.some.injEq] at h
    exact h ▸ hinv
  | cons c rest ih =>
    intro store store1 hinv hknown h
    unfold runCalls at h
    unfold parentsKnown at hknown
    cases hr : c.run store with
    | none => rw [hr] at h; simp at h
    | some store2 =>
      rw [hr] at h hknown
      simp only [Bool.and_eq_true] at hknown
      exact ih store2 store1 (Lineage_run store store2 c hinv hknown.1 hr) hknown.2 h

theorem getRow_some {α κ : Type} [DecidableEq κ] (key : α → κ) (table : List α) (k : κ)
    (r : α) (h : getRow key table k = some r) : r ∈ table ∧ key r = k := by
  unfold getRow at h
  exact ⟨List.mem_of_find?_eq_some h, by simpa using List.find?_some h⟩

theorem layersLoop_lineage (image : Image) (store : Store) (hinv : Lineage store) :
    ∀ (n : Nat) (cur : Image), cur ∈ store.images →
      store.layers.ids.indexOf cur.Id ≤ n →
      ∃ layers, layers ≠ [] ∧ ∀ (fuel : Nat) (acc : List String), n < fuel →
        Image.layersLoop image store fuel (some cur) acc = some (acc ++ layers, none) := by
  intro n
  induction n using Nat.strong_induction_on with
  | _ n ih =>
    intro cur hcur hidx
    have hl := LayerStore_Get_of_mem store.layers cur.Id (hinv.layered cur hcur)
    have hne := layerPath_ne_empty store.layers cur.Id
    cases hget : getRow Image.Id store.images cur.Parent with
    | none =>
      refine ⟨[store.layers.layerPath cur.Id], by simp, ?_⟩
      intro fuel acc hfuel
      obtain ⟨f, rfl⟩ : ∃ f, fuel = f + 1 := ⟨fuel - 1, by omega⟩
      unfold Image.layersLoop
      simp only [hl, hne, ne_eq, not_false_eq_true, if_true, Store.Get, hget]
      unfold Image.layersLoop
      simp
    | some p =>
      obtain ⟨hp, hpid⟩ := getRow_some Image.Id store.images cur.Parent p hget
      have hpne : cur.Parent ≠ "" := hpid ▸ hinv.named p hp
      have hpin : cur.Parent ∈ store.layers.ids := by
        rcases hinv.parented cur hcur with h0 | h1
        · exact absurd h0 hpne
        · exact h1
      have hlt := hinv.older cur hcur hpin
      rw [← hpid] at hlt
      have hn : 0 < n := by omega
      obtain ⟨ls, hls, hrun⟩ := ih (n - 1) (by omega) p hp (by omega)
      refine ⟨store.layers.layerPath cur.Id :: ls, by simp, ?_⟩
      intro fuel acc hfuel
      obtain ⟨f, rfl⟩ : ∃ f, fuel = f + 1 := ⟨fuel - 1, by omega⟩
      unfold Image.layersLoop
      simp only [hl, hne, ne_eq, not_false_eq_true, if_true, Store.Get, hget]
      rw [hrun f _ (by omega)]
      simp

theorem layersLoop_selfParent :
    ∀ (fuel : Nat) (acc : List String),
      Image.layersLoop selfParent selfParentStore fuel (some selfParent) acc = none := by
  intro fuel
  induction fuel with
  | zero => intro acc; rfl
  | succ n ih =>
    intro acc
    unfold Image.layersLoop
    have h1 : selfParentStore.layers.Get selfParent.Id ≠ "" := by decide
    have h2 : selfParentStore.Get selfParent.Parent = .ok (some selfParent) := by rfl
    simp only [h1, ne_eq, not_false_eq_true, if_true, h2]
    exact ih _

/-- C11, as stated, fails: `Register(archive, selfParent, "loop")` succeeds on a fresh store,
`Images()` then returns `selfParent`, and `selfParent.layers()` never returns: the parent of
the image is the image itself. -/
theorem layers_self_parent_loops :
    runCalls (New "/store") [.register { extracts := true } selfParent "loop"]
      = some selfParentStore ∧
    selfParentStore.Images = .ok [selfParent] ∧
    ∀ fuel, selfParent.layers selfParentStore fuel = none :=
  ⟨by rfl, by rfl, fun fuel => layersLoop_selfParent fuel []⟩

/-- C11, amended. For every store reached from a freshly initialised store by successful
`Create`/`Register`, `Copy`, `AddTag` and `Remove` calls in which every `Create`/`Register`
registers an image whose `Parent` is empty or the `Id` of an image of the catalog at the time
of the call, and for every image returned by `Images()`, the walk `image.layers()` terminates
(within as many iterations as there are layer directories), succeeds and yields at least one
layer path. -/
theorem layers_terminates (root : String) (calls : List Call) (store : Store)
    (hrun : runCalls (New root) calls = some store)
    (hknown : parentsKnown (New root) calls = true)
    (images : List Image) (himages : store.Images = .ok images)
    (img : Image) (himg : img ∈ images) :
    ∃ layers, layers ≠ [] ∧ ∀ fuel, store.layers.ids.length ≤ fuel →
      img.layers store fuel = some (layers, none) := by
  have hinv := Lineage_runCalls calls (New root) store (Lineage_New root) hknown hrun
  have hmem : img ∈ store.images := by
    simp only [Store.Images, Store.imageList, Except.ok.injEq] at himages
    rw [himages]; exact himg
  have hlt := List.indexOf_lt_length.mpr (hinv.layered img hmem)
  obtain ⟨ls, hls, hwalk⟩ := layersLoop_lineage img store hinv
    (store.layers.ids.length - 1) img hmem (by omega)
  refine ⟨ls, hls, ?_⟩
  intro fuel hfuel
  have := hwalk fuel [] (by omega)
  simpa [Image.layers] using this

/-- C11, amended, at a concrete input: the image left in the catalog after `lineageCalls`. -/
theorem layers_terminates_witness :
    ∃ layers, layers ≠ [] ∧ ∀ fuel, lineageStore.layers.ids.length ≤ fuel →
      childImage.layers lineageStore fuel = some (layers, none) :=
  layers_terminates "/store" lineageCalls lineageStore (by rfl) (by decide)
    [childImage] (by rfl) childImage (by decide)

end Fs
